import Mathlib

/-!
Verification development for the orgdatacore organizational-data service
(python/orgdatacore). The definitions below are a shallow embedding of the
relevant parts of the source:

  - `_types.py`: the data model (dataclasses become structures; Python dicts
    become association lists `List (String × α)` whose lookup takes the first
    binding, matching a dict with unique keys; tuples become lists).
  - `_service.py`: `_validate_data`, `Service.load_from_data_source`,
    the query methods, `_get_entity_by_type`, `_get_entity_type`,
    `get_hierarchy_path`, `get_descendants_tree`, `is_employee_in_org`.
  - `datasources.py`: `_retry_with_backoff`.
  - `_service.py` / `_async.py`: the watcher start lifecycle flags.

Loops that walk the possibly-cyclic parent graph are embedded with an explicit
fuel argument (structural recursion on `Nat`) so that every definition is
executable; the fuel passed by the entry points is `totalEntityCount + 1`,
which exceeds the deepest recursion the Python code can reach, because every
iteration that continues inserts a fresh entity name into the visited set.
Fuel-sufficiency lemmas are proved where a theorem needs them.
-/

namespace OrgDataCore

/-- Parent reference for hierarchy traversal (`ParentInfo` in `_types.py`). -/
structure ParentInfo where
  name : String
  type : String
deriving DecidableEq

/-- Shape shared by the four hierarchy dataclasses `Team`, `Org`, `Pillar` and
`TeamGroup` of `_types.py` (they declare the identical fields; the `group`
payload carries no data used by the functions verified here and is omitted). -/
structure HierEntity where
  uid : String
  name : String
  type : String
  parent : Option ParentInfo
deriving DecidableEq

/-- `Employee` of `_types.py` (string and flag fields). -/
structure Employee where
  uid : String
  full_name : String
  email : String
  job_title : String
  slack_uid : String
  github_id : String
  manager_uid : String
  is_people_manager : Bool
deriving DecidableEq

/-- `MembershipInfo` of `_types.py`. -/
structure MembershipInfo where
  name : String
  type : String
deriving DecidableEq

/-- `HierarchyPathEntry` of `_types.py`. -/
structure HierarchyPathEntry where
  name : String
  type : String
deriving DecidableEq

/-- `Lookups` of `_types.py`: the per-kind entity maps (the `components` map is
not consulted by any function verified here and is omitted). -/
structure Lookups where
  employees : List (String × Employee)
  teams : List (String × HierEntity)
  orgs : List (String × HierEntity)
  pillars : List (String × HierEntity)
  team_groups : List (String × HierEntity)
deriving DecidableEq

/-- `MembershipIndex` of `_types.py`. -/
structure MembershipIndex where
  membership_index : List (String × List MembershipInfo)
deriving DecidableEq

/-- `SlackIDMappings` of `_types.py`. -/
structure SlackIDMappings where
  slack_uid_to_uid : List (String × String)
deriving DecidableEq

/-- `GitHubIDMappings` of `_types.py`. -/
structure GitHubIDMappings where
  github_id_to_uid : List (String × String)
deriving DecidableEq

/-- `Indexes` of `_types.py` (the Jira index is not touched by the claims). -/
structure Indexes where
  membership : MembershipIndex
  slack_id_mappings : SlackIDMappings
  github_id_mappings : GitHubIDMappings
deriving DecidableEq

/-- `Data` of `_types.py` (metadata counts are inert strings and numbers and
are omitted). -/
structure Data where
  lookups : Lookups
  indexes : Indexes
deriving DecidableEq

/-- `DataVersion` of `_types.py`; `load_time` is modelled as an abstract tick. -/
structure DataVersion where
  load_time : Nat
  org_count : Nat
  employee_count : Nat
deriving DecidableEq

/-- The mutable state of a `Service` instance that the load path touches:
`self._data` and `self._version` (`_service.py`, `__init__`). -/
structure ServiceState where
  data : Option Data
  version : DataVersion
deriving DecidableEq

/-- Python's `str.lower`, as a structural map over the characters (adequate
for the ASCII kind tags and email addresses this code case-folds; defined
instead of `String.toLower` so that it evaluates inside the kernel). -/
def strLower (s : String) : String :=
  String.mk (s.data.map Char.toLower)

/-- `Service._get_entity_by_type` (`_service.py` lines 777-792): typed lookup,
with the entity type lower-cased before dispatch. -/
def getEntityByType (lk : Lookups) (entityName entityType : String) : Option HierEntity :=
  if strLower entityType = "team" then lk.teams.lookup entityName
  else if strLower entityType = "org" then lk.orgs.lookup entityName
  else if strLower entityType = "pillar" then lk.pillars.lookup entityName
  else if strLower entityType = "team_group" then lk.team_groups.lookup entityName
  else none

/-- `Service._get_entity_type` (`_service.py` lines 794-806): scan the four
entity maps in order and report the kind of the first containing the name. -/
def getEntityType (lk : Lookups) (entityName : String) : String :=
  if (lk.teams.lookup entityName).isSome then "team"
  else if (lk.orgs.lookup entityName).isSome then "org"
  else if (lk.pillars.lookup entityName).isSome then "pillar"
  else if (lk.team_groups.lookup entityName).isSome then "team_group"
  else ""

/-- Names of all hierarchy entities (keys of the four entity maps). -/
def entityNamesList (lk : Lookups) : List String :=
  (lk.teams ++ lk.orgs ++ lk.pillars ++ lk.team_groups).map Prod.fst

/-- Total number of hierarchy entities across the four maps (Python dict keys
are unique per map, so this is the number of distinct entities). -/
def totalEntityCount (lk : Lookups) : Nat :=
  (entityNamesList lk).length

/-- The `while current and current.parent` loop of `Service.get_hierarchy_path`
(`_service.py` lines 834-841), with the visited set as a list and an explicit
fuel bound. Each continuing iteration appends the parent reference, marks its
name visited and re-resolves; it stops on a root (`parent is None`), on a name
already visited (cycle guard, `break`), or on an unresolvable parent
(`current` becomes `None`, after the reference was already appended). -/
def hierarchyWalk (lk : Lookups) : Nat → List String → HierEntity → List HierarchyPathEntry
  | 0, _, _ => []
  | fuel + 1, visited, current =>
    match current.parent with
    | none => []
    | some p =>
      if p.name ∈ visited then []
      else
        match getEntityByType lk p.name p.type with
        | none => [{ name := p.name, type := p.type }]
        | some e =>
          { name := p.name, type := p.type } :: hierarchyWalk lk fuel (p.name :: visited) e

/-- `Service.get_hierarchy_path` (`_service.py` lines 808-842) on a loaded
snapshot: empty when the starting entity does not resolve, else the entity
itself followed by the walk. The fuel `totalEntityCount lk + 1` exceeds the
number of loop iterations the Python code can perform, because every
continuing iteration inserts a fresh entity name into `visited`
(see `hierarchyWalk_ancWalk`, whose fuel bound this entry point satisfies
for every snapshot). -/
def getHierarchyPath (lk : Lookups) (entityName : String) (entityType : String := "team") :
    List HierarchyPathEntry :=
  match getEntityByType lk entityName entityType with
  | none => []
  | some e =>
    { name := entityName, type := entityType } ::
      hierarchyWalk lk (totalEntityCount lk + 1) [entityName] e

/-- The `all_entities` list of `Service.get_descendants_tree` (`_service.py`
lines 861-866): every entity of the four maps tagged with its kind, in the
scan order teams, orgs, pillars, team_groups. -/
def allEntities (lk : Lookups) : List (String × HierEntity × String) :=
  lk.teams.map (fun x => (x.1, x.2, "team")) ++
  lk.orgs.map (fun x => (x.1, x.2, "org")) ++
  lk.pillars.map (fun x => (x.1, x.2, "pillar")) ++
  lk.team_groups.map (fun x => (x.1, x.2, "team_group"))

/-- The `children_map` of `Service.get_descendants_tree` (`_service.py` lines
872-876) read at one parent name: the (name, kind) of every entity whose
parent reference names `parentName`, in `all_entities` order (the per-key
append order of the Python dict of lists). -/
def childrenMap (lk : Lookups) (parentName : String) : List (String × String) :=
  (allEntities lk).filterMap fun x =>
    match x.2.1.parent with
    | some pr => if pr.name = parentName then some (x.1, x.2.2) else none
    | none => none

/-- `HierarchyNode` of `_types.py`: a node of the descendants tree. -/
inductive HierarchyNode where
  | node (name : String) (type : String) (children : List HierarchyNode)

/-- Name of a node. -/
def HierarchyNode.name : HierarchyNode → String
  | .node n _ _ => n

/-- Kind tag of a node. -/
def HierarchyNode.type : HierarchyNode → String
  | .node _ t _ => t

/-- Children of a node. -/
def HierarchyNode.children : HierarchyNode → List HierarchyNode
  | .node _ _ cs => cs

/-- The `tuple(build_node(n, t, visited) for n, t in children)` step of
`Service.get_descendants_tree` (`_service.py` line 883): the children are
built left to right and the single mutable `visited` set is threaded through
all of them (Python passes the same set object to every sibling call). -/
def buildChildrenStep (buildN : String → String → List String → HierarchyNode × List String) :
    List (String × String) → List String → List HierarchyNode × List String
  | [], visited => ([], visited)
  | (n, t) :: rest, visited =>
    let r1 := buildN n t visited
    let r2 := buildChildrenStep buildN rest r1.2
    (r1.1 :: r2.1, r2.2)

/-- `build_node` of `Service.get_descendants_tree` (`_service.py` lines
878-884): a name already in the shared visited set is emitted as a childless
leaf; otherwise the name is added to the set and the children built from
`children_map`, threading the set. The mutation `visited.add(name)` is
modelled by consing; the fuel argument bounds the recursion depth and the
entry point passes more than the Python code can consume (each expansion
inserts a fresh entity name). -/
def buildNode (lk : Lookups) : Nat → String → String → List String → HierarchyNode × List String
  | 0, name, ty, visited => (HierarchyNode.node name ty [], visited)
  | fuel + 1, name, ty, visited =>
    if name ∈ visited then (HierarchyNode.node name ty [], visited)
    else
      let r := buildChildrenStep (buildNode lk fuel) (childrenMap lk name) (name :: visited)
      (HierarchyNode.node name ty r.1, r.2)

/-- `Service.get_descendants_tree` (`_service.py` lines 844-886) on a loaded
snapshot: `none` when the name is in no entity map, else the tree rooted at
the entity, built from the reverse parent adjacency with the shared visited
set starting empty. -/
def getDescendantsTree (lk : Lookups) (entityName : String) : Option HierarchyNode :=
  let ty := getEntityType lk entityName
  if ty = "" then none
  else some (buildNode lk (totalEntityCount lk + 1) entityName ty []).1

/-- `Service.get_version` (`_service.py` lines 504-507). -/
def getVersion (st : ServiceState) : DataVersion :=
  st.version

/-- `Service.get_employee_by_uid` (`_service.py` lines 509-514). -/
def getEmployeeByUid (st : ServiceState) (uid : String) : Option Employee :=
  match st.data with
  | none => none
  | some d => if d.lookups.employees = [] then none else d.lookups.employees.lookup uid

/-- `Service.get_employee_by_email` (`_service.py` lines 516-525) on a loaded
snapshot: scan the employees in map order and return the first whose stored
email equals the query email after lower-casing both sides (`str.lower` is
modelled by `strLower`). -/
def getEmployeeByEmailData (d : Data) (email : String) : Option Employee :=
  if d.lookups.employees = [] then none
  else (d.lookups.employees.find? (fun x => strLower x.2.email == strLower email)).map Prod.snd

/-- `Service.get_employee_by_slack_id` (`_service.py` lines 527-541) on a
loaded snapshot: exact lookup of the handle in `slack_uid_to_uid`
(`dict.get(slack_id, "")` followed by the `if not uid` guard), then lookup of
the resulting uid among the employees. -/
def getEmployeeBySlackIdData (d : Data) (slackId : String) : Option Employee :=
  if d.indexes.slack_id_mappings.slack_uid_to_uid = [] then none
  else if d.lookups.employees = [] then none
  else
    match d.indexes.slack_id_mappings.slack_uid_to_uid.lookup slackId with
    | none => none
    | some uid => if uid = "" then none else d.lookups.employees.lookup uid

/-- `Service.get_employee_by_github_id` (`_service.py` lines 543-557) on a
loaded snapshot: exact lookup of the handle in `github_id_to_uid`, then
lookup of the resulting uid among the employees. -/
def getEmployeeByGithubIdData (d : Data) (githubId : String) : Option Employee :=
  if d.indexes.github_id_mappings.github_id_to_uid = [] then none
  else if d.lookups.employees = [] then none
  else
    match d.indexes.github_id_mappings.github_id_to_uid.lookup githubId with
    | none => none
    | some uid => if uid = "" then none else d.lookups.employees.lookup uid

/-- `self._data.indexes.membership.membership_index.get(uid, ())`
(`_service.py` line 667): the direct memberships of an employee. -/
def membershipsOf (d : Data) (uid : String) : List MembershipInfo :=
  (d.indexes.membership.membership_index.lookup uid).getD []

/-- The membership loop of `Service.is_employee_in_org` (`_service.py` lines
669-678), instrumented: the second component counts how many hierarchy paths
(`get_hierarchy_path` invocations) the loop computed. A direct org
membership returns at once with no path computed; a team membership computes
that team's path and returns if an org entry with the queried name appears
in it; otherwise the loop continues. -/
def isEmployeeInOrgLoop (lk : Lookups) (orgName : String) :
    List MembershipInfo → Bool × Nat
  | [] => (false, 0)
  | m :: rest =>
    if m.type == "org" && m.name == orgName then (true, 0)
    else if m.type == "team" then
      let path := getHierarchyPath lk m.name "team"
      if path.any (fun entry => entry.type == "org" && entry.name == orgName) then (true, 1)
      else
        let r := isEmployeeInOrgLoop lk orgName rest
        (r.1, r.2 + 1)
    else isEmployeeInOrgLoop lk orgName rest

/-- `Service.is_employee_in_org` (`_service.py` lines 661-678) on a loaded
snapshot (the `membership_index` emptiness guard of line 664 included). -/
def isEmployeeInOrgData (d : Data) (uid orgName : String) : Bool :=
  if d.indexes.membership.membership_index = [] then false
  else (isEmployeeInOrgLoop d.lookups orgName (membershipsOf d uid)).1

/-- Whether one membership entry makes `is_employee_in_org` answer true: a
direct org membership with the queried name, or a team membership whose
hierarchy path contains an entry of type `org` with the queried name. -/
def membershipMatchesOrg (lk : Lookups) (orgName : String) (m : MembershipInfo) : Bool :=
  (m.type == "org" && m.name == orgName) ||
  (m.type == "team" &&
    (getHierarchyPath lk m.name "team").any
      (fun entry => entry.type == "org" && entry.name == orgName))

/-- `_validate_data` (`_service.py` lines 350-355): reject a payload whose
employees map is empty, then one whose membership index is empty; the raised
`DataLoadError` message is returned. -/
def validateData (src : String) (d : Data) : Option String :=
  if d.lookups.employees = [] then
    some ("invalid data from " ++ src ++ ": missing lookups.employees")
  else if d.indexes.membership.membership_index = [] then
    some ("invalid data from " ++ src ++ ": missing indexes.membership.membership_index")
  else none

/-- Outcome of the three fallible stages that precede validation in
`Service.load_from_data_source`: `source.load()` raising (caught at lines
405-409), `json.load` failing to decode (lines 411-417), `parse_data`
raising (lines 419-423), or a successfully parsed payload. -/
inductive LoadOutcome where
  | sourceLoadRaises (msg : String)
  | jsonDecodeFails (msg : String)
  | structureParseFails (msg : String)
  | parsed (d : Data)
deriving DecidableEq

/-- `Service.load_from_data_source` (`_service.py` lines 393-442): each
failing stage raises a `DataLoadError` (modelled as the returned message)
without touching the state; only after validation passes are `self._data`
and `self._version` replaced, under the lock, with the new snapshot and a
fresh version. -/
def loadFromDataSource (st : ServiceState) (src : String) (outcome : LoadOutcome) (now : Nat) :
    ServiceState × Option String :=
  match outcome with
  | .sourceLoadRaises msg =>
    (st, some ("failed to load from data source " ++ src ++ ": " ++ msg))
  | .jsonDecodeFails msg =>
    (st, some ("failed to parse JSON from source " ++ src ++ ": " ++ msg))
  | .structureParseFails msg =>
    (st, some ("failed to parse data structure from source " ++ src ++ ": " ++ msg))
  | .parsed d =>
    match validateData src d with
    | some m => (st, some m)
    | none =>
      ({ data := some d,
         version :=
           { load_time := now,
             org_count := d.lookups.orgs.length,
             employee_count := d.lookups.employees.length } },
       none)

/-- Whether a load outcome fails some stage of `load_from_data_source`
(fetch, JSON decode, structure parse, or `_validate_data`). -/
def loadOutcomeFails (src : String) : LoadOutcome → Bool
  | .sourceLoadRaises _ => true
  | .jsonDecodeFails _ => true
  | .structureParseFails _ => true
  | .parsed d => (validateData src d).isSome

/-- One attempt record of `_retry_with_backoff` (`datasources.py` lines
118-170): either the operation's value with the number of invocations made,
or the last error with the number of invocations made. -/
inductive RetryOutcome (α : Type) where
  | done (a : α) (invocations : Nat)
  | exhausted (lastError : String) (invocations : Nat)
deriving DecidableEq

/-- The `for attempt in range(max_retries + 1)` loop of `_retry_with_backoff`
(`datasources.py` lines 144-168): `attempt` is the index of the next
invocation, the second argument the number of attempts remaining, the third
the last error seen. The operation is modelled by its outcome per attempt
index; the `time.sleep`/delay bookkeeping affects timing only, never the
result, and is not modelled. -/
def retryLoop (op : Nat → Except String α) : Nat → Nat → String → RetryOutcome α
  | attempt, 0, lastErr => .exhausted lastErr attempt
  | attempt, remaining + 1, _ =>
    match op attempt with
    | .ok a => .done a (attempt + 1)
    | .error e => retryLoop op (attempt + 1) remaining e

/-- `_retry_with_backoff` (`datasources.py` lines 118-170): run up to
`maxRetries + 1` attempts; on success return the value, on exhaustion raise
a `GCSError` whose message embeds the attempt count and the last underlying
error. The second component is the number of times the operation was
invoked. Python's initial `last_error = None` prints as `None`; it can
surface only if the loop runs zero times, which cannot happen since
`max_retries + 1 >= 1`. -/
def retryWithBackoff (op : Nat → Except String α) (maxRetries : Nat) (operationName : String) :
    Except String α × Nat :=
  match retryLoop op 0 (maxRetries + 1) "None" with
  | .done a n => (.ok a, n)
  | .exhausted e n =>
    (.error (operationName ++ " failed after " ++ toString (maxRetries + 1) ++
       " attempts: " ++ e), n)

/-- Result of a `start_data_source_watcher` call. -/
inductive StartResult where
  | ok
  | raisedRuntimeError
  | raisedLoadError (msg : String)
deriving DecidableEq

/-- Watcher-related state of the synchronous `Service` (`_service.py`):
`self._watcher_running`, `self._stop_event`, plus a count of the background
watch threads spawned by data sources (`FileDataSource.watch` and
`GCSDataSourceWithSDK.watch` both start a daemon polling thread and return
`None` immediately) that have not been stopped. -/
structure SyncWatcherState where
  watcher_running : Bool
  stop_requested : Bool
  active_source_watches : Nat
deriving DecidableEq

/-- `Service.start_data_source_watcher` (`_service.py` lines 444-484) called
with a source whose `watch` spawns a background thread and returns `None`
(the repository's `FileDataSource` and `GCSDataSourceWithSDK`): if
`self._watcher_running` is set, raise `RuntimeError` (line 458-459);
otherwise set the flag, clear the stop event, perform the initial load
(`loadOutcome` is its error, if any), call `source.watch` - which starts one
more background watch and returns - and then the `finally` block (line 484)
clears `self._watcher_running` before the call returns. -/
def startDataSourceWatcherSpawning (s : SyncWatcherState) (loadOutcome : Option String) :
    SyncWatcherState × StartResult :=
  if s.watcher_running then (s, .raisedRuntimeError)
  else
    match loadOutcome with
    | some m =>
      ({ s with watcher_running := false, stop_requested := false }, .raisedLoadError m)
    | none =>
      ({ watcher_running := false, stop_requested := false,
         active_source_watches := s.active_source_watches + 1 }, .ok)

/-- Watcher-related state of `AsyncService` (`_async.py`):
`self._watcher_running` and whether the background `_run_watcher` task is
still alive. -/
structure AsyncWatcherState where
  watcher_running : Bool
  watcher_task_active : Bool
deriving DecidableEq

/-- `AsyncService.start_data_source_watcher` (`_async.py` lines 147-210): if
`self._watcher_running` is set, raise `RuntimeError` (lines 162-163);
otherwise perform the initial load (raising its error before the flag is
set), set the flag and start the `_run_watcher` task, which keeps the flag
set until it finishes. -/
def startDataSourceWatcherAsync (s : AsyncWatcherState) (loadOutcome : Option String) :
    AsyncWatcherState × StartResult :=
  if s.watcher_running then (s, .raisedRuntimeError)
  else
    match loadOutcome with
    | some m => (s, .raisedLoadError m)
    | none => ({ watcher_running := true, watcher_task_active := true }, .ok)

/-- The `finally` block of `_run_watcher` (`_async.py` lines 204-207),
executed when the watcher task finishes (its `source.watch` returned or the
task was cancelled): the flag and the task are cleared. -/
def asyncWatcherTaskFinish (_s : AsyncWatcherState) : AsyncWatcherState :=
  { watcher_running := false, watcher_task_active := false }

/-- Fixture helper: a hierarchy entity with the given name and parent. -/
def mkEntity (n : String) (p : Option ParentInfo) : HierEntity :=
  { uid := n, name := n, type := "", parent := p }

/-- Fixture: the spec's concrete scenario, team `test-team` under org
`test-org`. -/
def lkBasic : Lookups :=
  { employees := []
    teams := [("test-team", mkEntity "test-team" (some { name := "test-org", type := "org" }))]
    orgs := [("test-org", mkEntity "test-org" none)]
    pillars := []
    team_groups := [] }

/-- Fixture: the spec's corrupted scenario, `test-team` whose parent points to
itself. -/
def lkSelfLoop : Lookups :=
  { employees := []
    teams := [("test-team", mkEntity "test-team" (some { name := "test-team", type := "team" }))]
    orgs := []
    pillars := []
    team_groups := [] }

/-- Fixture for the descendants-tree counterexample: the name `x` exists both
as a team and as an org, both children of `root`, and team `y` is a child of
`x`; the `(x, org)` node is reachable from `root` along a branch disjoint
from the `(x, team)` branch. -/
def lkTwoBranch : Lookups :=
  { employees := []
    teams := [("x", mkEntity "x" (some { name := "root", type := "org" })),
              ("y", mkEntity "y" (some { name := "x", type := "team" }))]
    orgs := [("root", mkEntity "root" none),
             ("x", mkEntity "x" (some { name := "root", type := "org" }))]
    pillars := []
    team_groups := [] }

/-- The tree the code returns for `lkTwoBranch` at `root`: the first `x`
branch is expanded with child `y`, the second `x` occurrence is emitted as a
childless leaf because the shared visited set already contains `x`. -/
def treeTwoBranch : HierarchyNode :=
  .node "root" "org"
    [.node "x" "team" [.node "y" "team" []],
     .node "x" "org" []]

/-- Fixture employee for the alias/email lookups. -/
def empBob : Employee :=
  { uid := "bob", full_name := "Bob", email := "Bob@Example.COM", job_title := ""
    slack_uid := "U1", github_id := "gh1", manager_uid := "", is_people_manager := false }

/-- Fixture snapshot for the alias/email lookups. -/
def dataAlias : Data :=
  { lookups :=
      { employees := [("bob", empBob)]
        teams := [], orgs := [], pillars := [], team_groups := [] }
    indexes :=
      { membership := { membership_index := [("bob", [])] }
        slack_id_mappings := { slack_uid_to_uid := [("U1", "bob")] }
        github_id_mappings := { github_id_to_uid := [("gh1", "bob")] } } }

/-- Fixture snapshot for the org-membership composition: employee `u` is a
direct member of teams `alpha`, `beta` and `gamma`; only `beta` sits under
the org `O`. -/
def dataOrgComp : Data :=
  { lookups :=
      { employees := [("u", { uid := "u", full_name := "", email := "", job_title := ""
                              slack_uid := "", github_id := "", manager_uid := ""
                              is_people_manager := false })]
        teams := [("alpha", mkEntity "alpha" none),
                  ("beta", mkEntity "beta" (some { name := "O", type := "org" })),
                  ("gamma", mkEntity "gamma" none)]
        orgs := [("O", mkEntity "O" none)]
        pillars := []
        team_groups := [] }
    indexes :=
      { membership :=
          { membership_index :=
              [("u", [{ name := "alpha", type := "team" },
                      { name := "beta", type := "team" },
                      { name := "gamma", type := "team" }])] }
        slack_id_mappings := { slack_uid_to_uid := [] }
        github_id_mappings := { github_id_to_uid := [] } } }

/-- Fixture payload with a non-empty employee map but an empty membership
index. -/
def dataNoMembership : Data :=
  { lookups :=
      { employees := [("bob", empBob)]
        teams := [], orgs := [], pillars := [], team_groups := [] }
    indexes :=
      { membership := { membership_index := [] }
        slack_id_mappings := { slack_uid_to_uid := [] }
        github_id_mappings := { github_id_to_uid := [] } } }

/-- Fixture service state that has never loaded. -/
def stEmpty : ServiceState :=
  { data := none, version := { load_time := 0, org_count := 0, employee_count := 0 } }

/-- Fixture operation for the retry helper: fails on attempts 0 and 1, then
succeeds with 42. -/
def opFlaky : Nat → Except String Nat := fun i =>
  if i = 0 then .error "e0" else if i = 1 then .error "e1" else .ok 42

/-- Number of entity names not yet in the visited set; the quantity the
parent walk strictly decreases at every continuing iteration. -/
def freshCount (lk : Lookups) (visited : List String) : Nat :=
  ((entityNamesList lk).toFinset \ visited.toFinset).card

/-- The walk relation described by the specification for
`get_hierarchy_path`: starting below a resolved entity, the remaining path
is empty when the entity has no parent (root) or when the parent name was
already visited on this walk (cycle guard); it is the single parent
reference when that reference does not resolve (dangling); otherwise it is
the parent reference followed by the walk continuing from the resolved
parent with the name marked visited. -/
inductive AncWalk (lk : Lookups) : List String → HierEntity → List HierarchyPathEntry → Prop where
  | root (visited : List String) (current : HierEntity)
      (h : current.parent = none) : AncWalk lk visited current []
  | cycle (visited : List String) (current : HierEntity) (p : ParentInfo)
      (h : current.parent = some p) (hv : p.name ∈ visited) :
      AncWalk lk visited current []
  | dangling (visited : List String) (current : HierEntity) (p : ParentInfo)
      (h : current.parent = some p) (hv : p.name ∉ visited)
      (hres : getEntityByType lk p.name p.type = none) :
      AncWalk lk visited current [{ name := p.name, type := p.type }]
  | step (visited : List String) (current : HierEntity) (p : ParentInfo) (e : HierEntity)
      (rest : List HierarchyPathEntry)
      (h : current.parent = some p) (hv : p.name ∉ visited)
      (hres : getEntityByType lk p.name p.type = some e)
      (hrest : AncWalk lk (p.name :: visited) e rest) :
      AncWalk lk visited current ({ name := p.name, type := p.type } :: rest)

/-- Number of nodes of a descendants tree that carry the given name and have
a non-empty children list (nodes the traversal actually expanded into
children). -/
def countExpanded (target : String) : HierarchyNode → Nat
  | .node n _ cs =>
    (if n = target then (if cs.isEmpty then 0 else 1) else 0) +
      (cs.attach.map (fun c => countExpanded target c.1)).sum
termination_by t => sizeOf t
decreasing_by
  simp only [HierarchyNode.node.sizeOf_spec]
  have := List.sizeOf_lt_of_mem c.2
  omega

/-- Sum of `countExpanded` over a list of trees. -/
def countExpandedList (target : String) (l : List HierarchyNode) : Nat :=
  (l.map (countExpanded target)).sum

/-- All nodes of a descendants tree. -/
def nodesOf : HierarchyNode → List HierarchyNode
  | .node n t cs =>
    .node n t cs :: (cs.attach.map (fun c => nodesOf c.1)).flatten
termination_by t => sizeOf t
decreasing_by
  simp only [HierarchyNode.node.sizeOf_spec]
  have := List.sizeOf_lt_of_mem c.2
  omega

/-! Helper lemmas about association-list lookup. -/

theorem lookup_mem_pairs {β : Type} {l : List (String × β)} {k : String} {v : β}
    (h : l.lookup k = some v) : (k, v) ∈ l := by
  induction l with
  | nil => simp [List.lookup] at h
  | cons hd tl ih =>
    obtain ⟨k', v'⟩ := hd
    rw [List.lookup] at h
    cases hkk : (k == k') with
    | true =>
      simp only [hkk] at h
      have hk : k = k' := eq_of_beq hkk
      subst hk
      have hv : v' = v := Option.some.inj h
      subst hv
      exact List.mem_cons_self _ _
    | false =>
      simp only [hkk] at h
      exact List.mem_cons_of_mem _ (ih h)

theorem lookup_mem_keys {β : Type} {l : List (String × β)} {k : String} {v : β}
    (h : l.lookup k = some v) : k ∈ l.map Prod.fst := by
  have := lookup_mem_pairs h
  exact List.mem_map.mpr ⟨(k, v), this, rfl⟩

theorem mem_entityNames_of_getEntityByType {lk : Lookups} {n ty : String} {e : HierEntity}
    (h : getEntityByType lk n ty = some e) : n ∈ entityNamesList lk := by
  unfold getEntityByType at h
  unfold entityNamesList
  simp only [List.map_append, List.mem_append]
  split_ifs at h with h1 h2 h3 h4
  · exact Or.inl (Or.inl (Or.inl (lookup_mem_keys h)))
  · exact Or.inl (Or.inl (Or.inr (lookup_mem_keys h)))
  · exact Or.inl (Or.inr (lookup_mem_keys h))
  · exact Or.inr (lookup_mem_keys h)

/-! Helper lemmas about `freshCount`. -/

theorem freshCount_cons_lt {lk : Lookups} {n : String} {visited : List String}
    (h1 : n ∈ entityNamesList lk) (h2 : n ∉ visited) :
    freshCount lk (n :: visited) < freshCount lk visited := by
  unfold freshCount
  rw [List.toFinset_cons, Finset.sdiff_insert]
  exact Finset.card_erase_lt_of_mem
    (Finset.mem_sdiff.mpr ⟨List.mem_toFinset.mpr h1, fun hc => h2 (List.mem_toFinset.mp hc)⟩)

theorem freshCount_le_total (lk : Lookups) (visited : List String) :
    freshCount lk visited ≤ totalEntityCount lk :=
  le_trans (Finset.card_le_card Finset.sdiff_subset) (List.toFinset_card_le _)

/-- C1: atomicity of load. For every prior service state and every load
outcome, `load_from_data_source` reports a `DataLoadError` exactly when some
stage fails (source load raises, JSON decoding fails, structure parsing
fails, or `_validate_data` rejects), and on any such failure the stored data
and version - hence `get_version` and the query methods, all of which read
only the state - are exactly what they were before the attempt; the new
snapshot is installed only when every stage succeeds. -/
theorem load_atomicity (st : ServiceState) (src : String) (outcome : LoadOutcome) (now : Nat) :
    (loadFromDataSource st src outcome now).2.isSome = loadOutcomeFails src outcome ∧
    ((loadFromDataSource st src outcome now).2.isSome = true →
      (loadFromDataSource st src outcome now).1 = st ∧
      getVersion (loadFromDataSource st src outcome now).1 = getVersion st ∧
      ∀ uid, getEmployeeByUid (loadFromDataSource st src outcome now).1 uid =
        getEmployeeByUid st uid) := by
  cases outcome with
  | sourceLoadRaises m => simp [loadFromDataSource, loadOutcomeFails]
  | jsonDecodeFails m => simp [loadFromDataSource, loadOutcomeFails]
  | structureParseFails m => simp [loadFromDataSource, loadOutcomeFails]
  | parsed d =>
    cases hv : validateData src d with
    | none => simp [loadFromDataSource, loadOutcomeFails, hv]
    | some m => simp [loadFromDataSource, loadOutcomeFails, hv]

/-- Witness for C1: a failed fetch against the never-loaded state leaves the
state and its observables untouched. -/
theorem load_atomicity_witness :
    (loadFromDataSource stEmpty "src" (.sourceLoadRaises "boom") 7).1 = stEmpty ∧
    getVersion (loadFromDataSource stEmpty "src" (.sourceLoadRaises "boom") 7).1 =
      getVersion stEmpty ∧
    getEmployeeByUid (loadFromDataSource stEmpty "src" (.sourceLoadRaises "boom") 7).1 "bob" =
      getEmployeeByUid stEmpty "bob" :=
  let h := (load_atomicity stEmpty "src" (.sourceLoadRaises "boom") 7).2 (by decide)
  ⟨h.1, h.2.1, h.2.2 "bob"⟩

/-- C10: structural validation also requires a non-empty membership index.
For every payload whose employee map is non-empty but whose
`indexes.membership.membership_index` is empty, `load_from_data_source` of
the synchronous `Service` raises the corresponding `DataLoadError` and the
stored state is unchanged. -/
theorem membership_index_required (st : ServiceState) (src : String) (d : Data) (now : Nat)
    (hemp : d.lookups.employees ≠ [])
    (hmem : d.indexes.membership.membership_index = []) :
    loadFromDataSource st src (.parsed d) now =
      (st, some ("invalid data from " ++ src ++
        ": missing indexes.membership.membership_index")) := by
  simp [loadFromDataSource, validateData, hemp, hmem]

/-- Witness for C10: a payload with one employee and an empty membership
index is rejected and the state is untouched. -/
theorem membership_index_required_witness :
    loadFromDataSource stEmpty "src" (.parsed dataNoMembership) 3 =
      (stEmpty, some "invalid data from src: missing indexes.membership.membership_index") := by
  have h := membership_index_required stEmpty "src" dataNoMembership 3 (by decide) rfl
  exact h.trans (by decide)

/-- The retry loop reaches the first success when it lies inside the attempt
budget, after exactly one invocation per failed attempt plus the successful
one. -/
theorem retryLoop_done {α : Type} (op : Nat → Except String α) (a : α) (N : Nat)
    (hsucc : op N = .ok a)
    (hfail : ∀ i, i < N → ∃ e, op i = .error e) :
    ∀ rem start lastErr, start ≤ N → N < start + rem →
      retryLoop op start rem lastErr = .done a (N + 1) := by
  intro rem
  induction rem with
  | zero => intro start lastErr h1 h2; omega
  | succ rem ih =>
    intro start lastErr h1 h2
    rcases Nat.eq_or_lt_of_le h1 with he | hlt
    · subst he
      simp [retryLoop, hsucc]
    · obtain ⟨e, he⟩ := hfail start hlt
      simp only [retryLoop, he]
      exact ih (start + 1) e hlt (by omega)

/-- The retry loop exhausts the budget when every attempt inside it fails,
after exactly one invocation per budgeted attempt, reporting the error of
the last attempt made. -/
theorem retryLoop_exhausted {α : Type} (op : Nat → Except String α) (N : Nat)
    (hfail : ∀ i, i < N → ∃ e, op i = .error e) :
    ∀ rem start lastErr, 1 ≤ rem → start + rem ≤ N →
      ∃ e, op (start + rem - 1) = .error e ∧
        retryLoop op start rem lastErr = .exhausted e (start + rem) := by
  intro rem
  induction rem with
  | zero => intro start lastErr h1 _; omega
  | succ rem ih =>
    intro start lastErr _ h2
    obtain ⟨e, he⟩ := hfail start (by omega)
    cases rem with
    | zero =>
      refine ⟨e, by simpa using he, ?_⟩
      simp [retryLoop, he]
    | succ rem' =>
      obtain ⟨e', he', heq⟩ := ih (start + 1) e (by omega) (by omega)
      have harith1 : start + 1 + (rem' + 1) - 1 = start + (rem' + 1 + 1) - 1 := by omega
      have harith2 : start + 1 + (rem' + 1) = start + (rem' + 1 + 1) := by omega
      refine ⟨e', harith1 ▸ he', ?_⟩
      have hstep : retryLoop op start (rem' + 1 + 1) lastErr =
          retryLoop op (start + 1) (rem' + 1) e := by
        conv_lhs => rw [retryLoop]
        rw [he]
      rw [hstep, heq, harith2]

/-- C3: retry budget honored. For an operation that fails on attempts
`0 .. N-1` and succeeds on attempt `N`: with budget `max_retries >= N`,
`_retry_with_backoff` returns the successful value after exactly `N + 1`
invocations; with budget `max_retries < N` it raises a `GCSError` after
exactly `max_retries + 1` invocations whose message embeds the last
underlying error and states the attempt count. -/
theorem retry_budget_honored {α : Type} (op : Nat → Except String α) (N maxRetries : Nat)
    (a : α) (operationName : String)
    (hfail : ∀ i, i < N → ∃ e, op i = .error e)
    (hsucc : op N = .ok a) :
    (N ≤ maxRetries →
      retryWithBackoff op maxRetries operationName = (.ok a, N + 1)) ∧
    (maxRetries < N →
      ∃ e, op maxRetries = .error e ∧
        retryWithBackoff op maxRetries operationName =
          (.error (operationName ++ " failed after " ++ toString (maxRetries + 1) ++
            " attempts: " ++ e), maxRetries + 1)) := by
  constructor
  · intro hle
    have h := retryLoop_done op a N hsucc hfail (maxRetries + 1) 0 "None" (by omega) (by omega)
    simp [retryWithBackoff, h]
  · intro hlt
    obtain ⟨e, he, heq⟩ :=
      retryLoop_exhausted op N hfail (maxRetries + 1) 0 "None" (by omega) (by omega)
    refine ⟨e, by simpa using he, ?_⟩
    rw [retryWithBackoff, heq]
    simp

/-- Witness for C3 with `opFlaky` (fails twice, then succeeds): budget 3
succeeds on the third invocation; budget 1 exhausts after two invocations
with the last error embedded. -/
theorem retry_budget_honored_witness :
    retryWithBackoff opFlaky 3 "download" = (.ok 42, 3) ∧
    retryWithBackoff opFlaky 1 "download" =
      (.error "download failed after 2 attempts: e1", 2) := by
  have hfail : ∀ i, i < 2 → ∃ e, opFlaky i = .error e := by
    intro i hi
    match i, hi with
    | 0, _ => exact ⟨"e0", rfl⟩
    | 1, _ => exact ⟨"e1", rfl⟩
  have hsucc : opFlaky 2 = .ok 42 := rfl
  constructor
  · exact (retry_budget_honored opFlaky 2 3 42 "download" hfail hsucc).1 (by omega)
  · obtain ⟨e, he, heq⟩ :=
      (retry_budget_honored opFlaky 2 1 42 "download" hfail hsucc).2 (by omega)
    have hee : e = "e1" :=
      Except.error.inj (he.symm.trans (show opFlaky 1 = Except.error "e1" from rfl))
    subst hee
    exact heq.trans rfl

/-- C9 counterexample: with a source whose `watch` spawns a background thread
and returns immediately (the repository's `FileDataSource` and
`GCSDataSourceWithSDK`), a first successful `start_data_source_watcher`
leaves one active background watch, yet a second call does not raise
`RuntimeError` - the `finally` block already cleared `_watcher_running` when
`source.watch` returned - and instead starts a second active watch. This
falsifies the claim that the misuse error is raised for the whole duration
of an active watch in the synchronous variant. -/
theorem single_watch_counterexample :
    (startDataSourceWatcherSpawning ⟨false, false, 0⟩ none).2 = .ok ∧
    (startDataSourceWatcherSpawning ⟨false, false, 0⟩ none).1.active_source_watches = 1 ∧
    (startDataSourceWatcherSpawning
        (startDataSourceWatcherSpawning ⟨false, false, 0⟩ none).1 none).2 ≠
      .raisedRuntimeError ∧
    (startDataSourceWatcherSpawning
        (startDataSourceWatcherSpawning ⟨false, false, 0⟩ none).1
        none).1.active_source_watches = 2 := by
  decide

/-- C9 amended: `start_data_source_watcher` raises `RuntimeError` exactly
while `_watcher_running` is set. In the synchronous variant the flag is set
only for the duration of the call itself: with a source whose `watch`
spawns a thread and returns, a successful call clears the flag on return
(while adding an active background watch), so only a start issued during the
call raises. In the asynchronous variant the flag stays set while the
watcher task is alive, so a second start during the active task raises
`RuntimeError`, and the flag clears when the task finishes. The misuse error
is a distinct kind from the data-load error. -/
theorem watch_guard_scope :
    (∀ s o, (startDataSourceWatcherSpawning s o).2 = .raisedRuntimeError ↔
      s.watcher_running = true) ∧
    (∀ s o, s.watcher_running = false →
      (startDataSourceWatcherSpawning s o).1.watcher_running = false) ∧
    (∀ s, s.watcher_running = false →
      (startDataSourceWatcherSpawning s none).1.active_source_watches =
        s.active_source_watches + 1) ∧
    (∀ s o, (startDataSourceWatcherAsync s o).2 = .raisedRuntimeError ↔
      s.watcher_running = true) ∧
    (∀ s, s.watcher_running = false →
      (startDataSourceWatcherAsync s none).1.watcher_running = true ∧
      ∀ o, (startDataSourceWatcherAsync
        (startDataSourceWatcherAsync s none).1 o).2 = .raisedRuntimeError) ∧
    (∀ s, (asyncWatcherTaskFinish s).watcher_running = false) ∧
    (∀ m, (StartResult.raisedRuntimeError : StartResult) ≠ .raisedLoadError m) := by
  refine ⟨?_, ?_, ?_, ?_, ?_, ?_, ?_⟩
  · intro s o
    cases hr : s.watcher_running <;>
      cases o <;> simp [startDataSourceWatcherSpawning, hr]
  · intro s o hr
    cases o <;> simp [startDataSourceWatcherSpawning, hr]
  · intro s hr
    simp [startDataSourceWatcherSpawning, hr]
  · intro s o
    cases hr : s.watcher_running <;>
      cases o <;> simp [startDataSourceWatcherAsync, hr]
  · intro s hr
    refine ⟨by simp [startDataSourceWatcherAsync, hr], ?_⟩
    intro o
    simp [startDataSourceWatcherAsync, hr]
  · intro s
    simp [asyncWatcherTaskFinish]
  · intro m
    simp

/-- Witness for C9 amended: in the asynchronous variant, after a successful
start the flag is set and a second start raises `RuntimeError`. -/
theorem watch_guard_scope_witness :
    (startDataSourceWatcherAsync ⟨false, false⟩ none).1.watcher_running = true ∧
    (startDataSourceWatcherAsync
      (startDataSourceWatcherAsync ⟨false, false⟩ none).1 (some "boom")).2 =
        .raisedRuntimeError := by
  have h := watch_guard_scope.2.2.2.2.1 ⟨false, false⟩ rfl
  exact ⟨h.1, h.2 (some "boom")⟩

/-- With fuel exceeding the number of entity names not yet visited, the
embedded walk loop satisfies the specification's walk relation (the fuel
bound can never be hit, because each continuing iteration visits a fresh
entity name). -/
theorem hierarchyWalk_ancWalk (lk : Lookups) :
    ∀ fuel visited current, freshCount lk visited < fuel →
      AncWalk lk visited current (hierarchyWalk lk fuel visited current) := by
  intro fuel
  induction fuel with
  | zero => intro visited current h; omega
  | succ fuel ih =>
    intro visited current _
    cases hp : current.parent with
    | none =>
      simp only [hierarchyWalk, hp]
      exact AncWalk.root _ _ hp
    | some p =>
      by_cases hv : p.name ∈ visited
      · simp only [hierarchyWalk, hp, if_pos hv]
        exact AncWalk.cycle _ _ p hp hv
      · cases hres : getEntityByType lk p.name p.type with
        | none =>
          simp only [hierarchyWalk, hp, if_neg hv, hres]
          exact AncWalk.dangling _ _ p hp hv hres
        | some e =>
          simp only [hierarchyWalk, hp, if_neg hv, hres]
          refine AncWalk.step _ _ p e _ hp hv hres (ih _ e ?_)
          have h2 := freshCount_cons_lt (mem_entityNames_of_getEntityByType hres) hv
          have h3 := freshCount_le_total lk visited
          omega

/-- C2: ancestor-path walk semantics. `get_hierarchy_path` returns the empty
list when the starting entity does not resolve; otherwise the first element
is the entity itself and the remainder satisfies the walk relation `AncWalk`
- each successive parent reference is appended, stopping at a root, at a
parent name already visited on this walk (cycle guard, no error), or at a
parent reference that does not resolve (dangling, appended last); in
particular an entity whose parent names itself yields a path containing only
that entity. -/
theorem hierarchy_path_walk_spec (lk : Lookups) (entityName entityType : String) :
    (getEntityByType lk entityName entityType = none →
      getHierarchyPath lk entityName entityType = []) ∧
    (∀ e, getEntityByType lk entityName entityType = some e →
      ∃ rest, getHierarchyPath lk entityName entityType =
          { name := entityName, type := entityType } :: rest ∧
        AncWalk lk [entityName] e rest) ∧
    (∀ e p, getEntityByType lk entityName entityType = some e →
      e.parent = some p → p.name = entityName →
      getHierarchyPath lk entityName entityType =
        [{ name := entityName, type := entityType }]) := by
  refine ⟨?_, ?_, ?_⟩
  · intro h
    simp [getHierarchyPath, h]
  · intro e he
    refine ⟨hierarchyWalk lk (totalEntityCount lk + 1) [entityName] e, ?_, ?_⟩
    · simp [getHierarchyPath, he]
    · apply hierarchyWalk_ancWalk
      have := freshCount_le_total lk [entityName]
      omega
  · intro e p he hp hpn
    have hv : p.name ∈ [entityName] := by simp [hpn]
    simp only [getHierarchyPath, he, hierarchyWalk, hp]
    rw [if_pos hv]

/-- Witness for C2: the spec's corrupted scenario - `test-team` whose parent
points to itself - yields the singleton path (the cycle guard stops at
once). -/
theorem hierarchy_path_walk_spec_witness :
    getHierarchyPath lkSelfLoop "test-team" "team" =
      [{ name := "test-team", type := "team" }] :=
  (hierarchy_path_walk_spec lkSelfLoop "test-team" "team").2.2
    (mkEntity "test-team" (some { name := "test-team", type := "team" }))
    { name := "test-team", type := "team" } rfl rfl rfl

/-- The walk's length is bounded by the number of entity names not yet
visited plus one, at every fuel. -/
theorem hierarchyWalk_length_le (lk : Lookups) :
    ∀ fuel visited current,
      (hierarchyWalk lk fuel visited current).length ≤ freshCount lk visited + 1 := by
  intro fuel
  induction fuel with
  | zero => intro visited current; simp [hierarchyWalk]
  | succ fuel ih =>
    intro visited current
    cases hp : current.parent with
    | none => simp [hierarchyWalk, hp]
    | some p =>
      by_cases hv : p.name ∈ visited
      · simp [hierarchyWalk, hp, hv]
      · cases hres : getEntityByType lk p.name p.type with
        | none => simp [hierarchyWalk, hp, hv, hres]
        | some e =>
          simp only [hierarchyWalk, hp, if_neg hv, hres, List.length_cons]
          have h1 := ih (p.name :: visited) e
          have h2 := freshCount_cons_lt (mem_entityNames_of_getEntityByType hres) hv
          omega

/-- C4: ancestor-path termination and length bound. The embedded
`get_hierarchy_path` is a total function (the walk is structural recursion
on its fuel, and the fuel the entry point passes can never run out because
each continuing iteration visits a fresh entity name), and for every entity
graph - cycles and dangling parents included - the returned list has length
at most the number of distinct entities plus one. -/
theorem hierarchy_path_length_bound (lk : Lookups) (entityName entityType : String) :
    (getHierarchyPath lk entityName entityType).length ≤ totalEntityCount lk + 1 := by
  cases he : getEntityByType lk entityName entityType with
  | none => simp [getHierarchyPath, he]
  | some e =>
    simp only [getHierarchyPath, he, List.length_cons]
    have h1 := hierarchyWalk_length_le lk (totalEntityCount lk + 1) [entityName] e
    have hmem : entityName ∈ entityNamesList lk := mem_entityNames_of_getEntityByType he
    have h2 : freshCount lk [entityName] < (entityNamesList lk).toFinset.card := by
      unfold freshCount
      have hsing : ([entityName] : List String).toFinset = {entityName} := by simp
      rw [hsing, ← Finset.erase_eq]
      exact Finset.card_erase_lt_of_mem (List.mem_toFinset.mpr hmem)
    have h3 : (entityNamesList lk).toFinset.card ≤ totalEntityCount lk :=
      List.toFinset_card_le _
    omega

/-- C8: alias lookups are exact-match while email lookup is case-folded.
A Slack or GitHub handle returns an employee only when the given handle is
literally one of the mapped keys (no case folding is applied), whereas the
email lookup compares stored and queried addresses after lower-casing both,
so any employee found has a stored email equal to the query up to case, and
any case variant of a stored email finds an employee. -/
theorem alias_exact_email_casefold (d : Data) :
    (∀ s, (getEmployeeBySlackIdData d s).isSome = true →
      s ∈ d.indexes.slack_id_mappings.slack_uid_to_uid.map Prod.fst) ∧
    (∀ g, (getEmployeeByGithubIdData d g).isSome = true →
      g ∈ d.indexes.github_id_mappings.github_id_to_uid.map Prod.fst) ∧
    (∀ q emp, getEmployeeByEmailData d q = some emp →
      strLower emp.email = strLower q ∧ emp ∈ d.lookups.employees.map Prod.snd) ∧
    (∀ q, (∃ pr ∈ d.lookups.employees, strLower pr.2.email = strLower q) →
      (getEmployeeByEmailData d q).isSome = true) := by
  refine ⟨?_, ?_, ?_, ?_⟩
  · intro s hs
    unfold getEmployeeBySlackIdData at hs
    split_ifs at hs with h1 h2
    · simp at hs
    · simp at hs
    · cases hl : d.indexes.slack_id_mappings.slack_uid_to_uid.lookup s with
      | none => rw [hl] at hs; simp at hs
      | some uid => exact lookup_mem_keys hl
  · intro g hg
    unfold getEmployeeByGithubIdData at hg
    split_ifs at hg with h1 h2
    · simp at hg
    · simp at hg
    · cases hl : d.indexes.github_id_mappings.github_id_to_uid.lookup g with
      | none => rw [hl] at hg; simp at hg
      | some uid => exact lookup_mem_keys hl
  · intro q emp he
    unfold getEmployeeByEmailData at he
    split_ifs at he with h1
    cases hf : d.lookups.employees.find? (fun x => strLower x.2.email == strLower q) with
    | none => rw [hf] at he; simp at he
    | some pr =>
      rw [hf] at he
      have hemp : pr.2 = emp := Option.some.inj he
      have hp1 := List.find?_some hf
      have hp2 := List.mem_of_find?_eq_some hf
      constructor
      · rw [← hemp]
        exact eq_of_beq hp1
      · exact List.mem_map.mpr ⟨pr, hp2, hemp⟩
  · intro q hex
    obtain ⟨pr, hmem, heq⟩ := hex
    unfold getEmployeeByEmailData
    have hne : d.lookups.employees ≠ [] := by
      intro hc
      rw [hc] at hmem
      simp at hmem
    rw [if_neg hne]
    cases hf : d.lookups.employees.find? (fun x => strLower x.2.email == strLower q) with
    | none =>
      exact absurd (List.find?_eq_none.mp hf pr hmem) (by simp [heq])
    | some pr' => simp

/-- Witness for C8: the handle keys are literal members, and querying a case
variant of the stored email `Bob@Example.COM` finds the employee. -/
theorem alias_exact_email_casefold_witness :
    "U1" ∈ dataAlias.indexes.slack_id_mappings.slack_uid_to_uid.map Prod.fst ∧
    "gh1" ∈ dataAlias.indexes.github_id_mappings.github_id_to_uid.map Prod.fst ∧
    (getEmployeeByEmailData dataAlias "bOB@example.com").isSome = true := by
  refine ⟨?_, ?_, ?_⟩
  · exact (alias_exact_email_casefold dataAlias).1 "U1" rfl
  · exact (alias_exact_email_casefold dataAlias).2.1 "gh1" rfl
  · exact (alias_exact_email_casefold dataAlias).2.2.2 "bOB@example.com"
      ⟨("bob", empBob), by decide, by decide⟩

/-- Extending an existential over a list by a head that fails the predicate. -/
theorem exists_cons_bool {α : Type} {p : α → Bool} {m : α} {rest : List α}
    (hm : p m = false) :
    (∃ x ∈ rest, p x = true) ↔ ∃ x ∈ m :: rest, p x = true := by
  constructor
  · rintro ⟨x, hx, hp⟩
    exact ⟨x, List.mem_cons_of_mem _ hx, hp⟩
  · rintro ⟨x, hx, hp⟩
    rcases List.mem_cons.mp hx with he | hxm
    · subst he
      rw [hm] at hp
      exact absurd hp (by simp)
    · exact ⟨x, hxm, hp⟩

/-- The membership loop answers true exactly when some membership entry
matches (directly, or through its team's hierarchy path). -/
theorem inOrgLoop_true_iff (lk : Lookups) (orgName : String) :
    ∀ ms, (isEmployeeInOrgLoop lk orgName ms).1 = true ↔
      ∃ m ∈ ms, membershipMatchesOrg lk orgName m = true := by
  intro ms
  induction ms with
  | nil => simp [isEmployeeInOrgLoop]
  | cons m rest ih =>
    cases h1 : (m.type == "org" && m.name == orgName) with
    | true =>
      have hl : (isEmployeeInOrgLoop lk orgName (m :: rest)).1 = true := by
        simp [isEmployeeInOrgLoop, h1]
      exact Iff.intro
        (fun _ => ⟨m, List.mem_cons_self _ _, by simp [membershipMatchesOrg, h1]⟩)
        (fun _ => hl)
    | false =>
      cases h2 : (m.type == "team") with
      | true =>
        cases h3 : (getHierarchyPath lk m.name "team").any
            (fun entry => entry.type == "org" && entry.name == orgName) with
        | true =>
          have hl : (isEmployeeInOrgLoop lk orgName (m :: rest)).1 = true := by
            simp [isEmployeeInOrgLoop, h1, h2, h3]
          exact Iff.intro
            (fun _ => ⟨m, List.mem_cons_self _ _, by simp [membershipMatchesOrg, h1, h2, h3]⟩)
            (fun _ => hl)
        | false =>
          have hl : (isEmployeeInOrgLoop lk orgName (m :: rest)).1 =
              (isEmployeeInOrgLoop lk orgName rest).1 := by
            simp [isEmployeeInOrgLoop, h1, h2, h3]
          have hm : membershipMatchesOrg lk orgName m = false := by
            simp [membershipMatchesOrg, h1, h2, h3]
          rw [hl, ih]
          exact exists_cons_bool hm
      | false =>
        have hl : (isEmployeeInOrgLoop lk orgName (m :: rest)).1 =
            (isEmployeeInOrgLoop lk orgName rest).1 := by
          simp [isEmployeeInOrgLoop, h1, h2]
        have hm : membershipMatchesOrg lk orgName m = false := by
          simp [membershipMatchesOrg, h1, h2]
        rw [hl, ih]
        exact exists_cons_bool hm

/-- When no membership entry matches, the loop answers false and computes one
hierarchy path per team membership in the whole list. -/
theorem inOrgLoop_count_nomatch (lk : Lookups) (orgName : String) :
    ∀ ms, (∀ x ∈ ms, membershipMatchesOrg lk orgName x = false) →
      isEmployeeInOrgLoop lk orgName ms =
        (false, (ms.filter (fun x => x.type == "team")).length) := by
  intro ms
  induction ms with
  | nil => intro _; simp [isEmployeeInOrgLoop]
  | cons m rest ih =>
    intro hall
    have hm := hall m (List.mem_cons_self _ _)
    have hrest := fun x hx => hall x (List.mem_cons_of_mem _ hx)
    unfold membershipMatchesOrg at hm
    have h1 := (Bool.or_eq_false_iff.mp hm).1
    have h23 := (Bool.or_eq_false_iff.mp hm).2
    cases h2 : (m.type == "team") with
    | true =>
      have h3 : ((getHierarchyPath lk m.name "team").any
          (fun entry => entry.type == "org" && entry.name == orgName)) = false := by
        rcases Bool.and_eq_false_iff.mp h23 with hb | hc
        · rw [h2] at hb
          exact absurd hb (by simp)
        · exact hc
      have hl : isEmployeeInOrgLoop lk orgName (m :: rest) =
          ((isEmployeeInOrgLoop lk orgName rest).1,
           (isEmployeeInOrgLoop lk orgName rest).2 + 1) := by
        simp [isEmployeeInOrgLoop, h1, h2, h3]
      rw [hl, ih hrest]
      simp [List.filter_cons, h2]
    | false =>
      have hl : isEmployeeInOrgLoop lk orgName (m :: rest) =
          isEmployeeInOrgLoop lk orgName rest := by
        simp [isEmployeeInOrgLoop, h1, h2]
      rw [hl, ih hrest]
      simp [List.filter_cons, h2]

/-- When the first matching entry is `m`, the loop returns true having
computed one hierarchy path per team membership strictly before `m`, plus
one for `m` itself when `m` is a team membership (none when it is a direct
org match); the memberships after `m` contribute nothing. -/
theorem inOrgLoop_count_match (lk : Lookups) (orgName : String) :
    ∀ pre (m : MembershipInfo) post,
      (∀ x ∈ pre, membershipMatchesOrg lk orgName x = false) →
      membershipMatchesOrg lk orgName m = true →
      isEmployeeInOrgLoop lk orgName (pre ++ m :: post) =
        (true, (pre.filter (fun x => x.type == "team")).length +
          (if m.type == "team" then 1 else 0)) := by
  intro pre
  induction pre with
  | nil =>
    intro m post _ hm
    simp only [List.nil_append]
    cases h1 : (m.type == "org" && m.name == orgName) with
    | true =>
      have hty : m.type = "org" := eq_of_beq ((Bool.and_eq_true _ _).mp h1).1
      have hteam : (m.type == "team") = false := by
        rw [hty]
        rfl
      simp [isEmployeeInOrgLoop, h1, hteam]
    | false =>
      have hm' := hm
      unfold membershipMatchesOrg at hm'
      rw [h1] at hm'
      simp only [Bool.false_or, Bool.and_eq_true] at hm'
      obtain ⟨h2, h3⟩ := hm'
      simp [isEmployeeInOrgLoop, h1, h2, h3]
  | cons x pre ih =>
    intro m post hall hm
    have hx := hall x (List.mem_cons_self _ _)
    have hpre := fun y hy => hall y (List.mem_cons_of_mem _ hy)
    unfold membershipMatchesOrg at hx
    have h1 := (Bool.or_eq_false_iff.mp hx).1
    have h23 := (Bool.or_eq_false_iff.mp hx).2
    simp only [List.cons_append]
    cases h2 : (x.type == "team") with
    | true =>
      have h3 : ((getHierarchyPath lk x.name "team").any
          (fun entry => entry.type == "org" && entry.name == orgName)) = false := by
        rcases Bool.and_eq_false_iff.mp h23 with hb | hc
        · rw [h2] at hb
          exact absurd hb (by simp)
        · exact hc
      have hl : isEmployeeInOrgLoop lk orgName (x :: (pre ++ m :: post)) =
          ((isEmployeeInOrgLoop lk orgName (pre ++ m :: post)).1,
           (isEmployeeInOrgLoop lk orgName (pre ++ m :: post)).2 + 1) := by
        simp [isEmployeeInOrgLoop, h1, h2, h3]
      rw [hl, ih m post hpre hm]
      have harith : ∀ L k : Nat, L + k + 1 = L + 1 + k := by omega
      simp only [List.filter_cons, h2, if_true, List.length_cons]
      exact congrArg (Prod.mk true) (harith _ _)
    | false =>
      have hl : isEmployeeInOrgLoop lk orgName (x :: (pre ++ m :: post)) =
          isEmployeeInOrgLoop lk orgName (pre ++ m :: post) := by
        simp [isEmployeeInOrgLoop, h1, h2]
      rw [hl, ih m post hpre hm]
      simp [List.filter_cons, h2]

/-- C7: transitive org membership composition with short-circuit.
`is_employee_in_org` answers true exactly when some direct membership entry
of the employee is an org entry with the queried name, or a team entry whose
hierarchy path contains an entry of type `org` with that name. The loop is
instrumented with the number of hierarchy paths it computes: when the first
matching entry is `m`, only the team memberships up to and including `m`
have their paths computed - the entries after the first match contribute
none - and when nothing matches, one path per team membership is computed. -/
theorem employee_in_org_composition (d : Data) (uid orgName : String) :
    (isEmployeeInOrgData d uid orgName = true ↔
      ∃ m ∈ membershipsOf d uid, membershipMatchesOrg d.lookups orgName m = true) ∧
    (∀ pre m post, membershipsOf d uid = pre ++ m :: post →
      (∀ x ∈ pre, membershipMatchesOrg d.lookups orgName x = false) →
      membershipMatchesOrg d.lookups orgName m = true →
      isEmployeeInOrgLoop d.lookups orgName (membershipsOf d uid) =
        (true, (pre.filter (fun x => x.type == "team")).length +
          (if m.type == "team" then 1 else 0))) ∧
    ((∀ x ∈ membershipsOf d uid, membershipMatchesOrg d.lookups orgName x = false) →
      isEmployeeInOrgData d uid orgName = false ∧
      isEmployeeInOrgLoop d.lookups orgName (membershipsOf d uid) =
        (false, ((membershipsOf d uid).filter (fun x => x.type == "team")).length)) := by
  refine ⟨?_, ?_, ?_⟩
  · unfold isEmployeeInOrgData
    by_cases hidx : d.indexes.membership.membership_index = []
    · rw [if_pos hidx]
      constructor
      · intro hc
        exact absurd hc (by simp)
      · rintro ⟨m, hm, _⟩
        unfold membershipsOf at hm
        rw [hidx] at hm
        simp [List.lookup] at hm
    · rw [if_neg hidx]
      exact inOrgLoop_true_iff d.lookups orgName (membershipsOf d uid)
  · intro pre m post hsplit hpre hm
    rw [hsplit]
    exact inOrgLoop_count_match d.lookups orgName pre m post hpre hm
  · intro hall
    have hc := inOrgLoop_count_nomatch d.lookups orgName (membershipsOf d uid) hall
    constructor
    · unfold isEmployeeInOrgData
      by_cases hidx : d.indexes.membership.membership_index = []
      · rw [if_pos hidx]
      · rw [if_neg hidx, hc]
    · exact hc

/-- Witness for C7: employee `u` of `dataOrgComp` is transitively in org `O`
through its second team membership `beta`, and the loop computed exactly two
hierarchy paths (for `alpha` and `beta`), none for the remaining team
`gamma`. -/
theorem employee_in_org_composition_witness :
    isEmployeeInOrgData dataOrgComp "u" "O" = true ∧
    isEmployeeInOrgLoop dataOrgComp.lookups "O" (membershipsOf dataOrgComp "u") =
      (true, 2) := by
  have h := employee_in_org_composition dataOrgComp "u" "O"
  constructor
  · exact h.1.mpr ⟨{ name := "beta", type := "team" }, by decide, by decide⟩
  · have h2 := h.2.1 [{ name := "alpha", type := "team" }] { name := "beta", type := "team" }
      [{ name := "gamma", type := "team" }] (by decide) (by decide) (by decide)
    exact h2.trans (by decide)

/-- An entity resolved by typed lookup whose parent reference names `P`
appears, tagged with its kind, in the children map at `P`. -/
theorem childrenMap_mem {lk : Lookups} {n ty : String} {e : HierEntity} {pref : ParentInfo}
    (he : getEntityByType lk n ty = some e) (hp : e.parent = some pref) :
    (n, strLower ty) ∈ childrenMap lk pref.name := by
  have hmem : (n, e, strLower ty) ∈ allEntities lk := by
    unfold getEntityByType at he
    unfold allEntities
    split_ifs at he with h1 h2 h3 h4
    · rw [h1]
      exact List.mem_append.mpr (Or.inl (List.mem_append.mpr (Or.inl
        (List.mem_append.mpr (Or.inl
          (List.mem_map.mpr ⟨(n, e), lookup_mem_pairs he, rfl⟩))))))
    · rw [h2]
      exact List.mem_append.mpr (Or.inl (List.mem_append.mpr (Or.inl
        (List.mem_append.mpr (Or.inr
          (List.mem_map.mpr ⟨(n, e), lookup_mem_pairs he, rfl⟩))))))
    · rw [h3]
      exact List.mem_append.mpr (Or.inl (List.mem_append.mpr (Or.inr
        (List.mem_map.mpr ⟨(n, e), lookup_mem_pairs he, rfl⟩))))
    · rw [h4]
      exact List.mem_append.mpr (Or.inr
        (List.mem_map.mpr ⟨(n, e), lookup_mem_pairs he, rfl⟩))
  unfold childrenMap
  refine List.mem_filterMap.mpr ⟨(n, e, strLower ty), hmem, ?_⟩
  simp [hp]

/-- `build_node` always emits a node carrying the requested name and kind,
regardless of fuel and of the visited set. -/
theorem buildNode_name_type (lk : Lookups) (fuel : Nat) (n t : String) (v : List String) :
    (buildNode lk fuel n t v).1.name = n ∧ (buildNode lk fuel n t v).1.type = t := by
  cases fuel with
  | zero => exact ⟨rfl, rfl⟩
  | succ fuel =>
    by_cases hv : n ∈ v
    · simp [buildNode, hv, HierarchyNode.name, HierarchyNode.type]
    · simp [buildNode, hv, HierarchyNode.name, HierarchyNode.type]

/-- The children built by the threaded sibling step carry exactly the
requested (name, kind) pairs, in order. -/
theorem buildChildrenStep_names
    (buildN : String → String → List String → HierarchyNode × List String)
    (hB : ∀ n t v, (buildN n t v).1.name = n ∧ (buildN n t v).1.type = t) :
    ∀ pending v, ((buildChildrenStep buildN pending v).1.map
      (fun c => (c.name, c.type))) = pending := by
  intro pending
  induction pending with
  | nil => intro v; rfl
  | cons ht rest ih =>
    intro v
    obtain ⟨n, t⟩ := ht
    simp only [buildChildrenStep, List.map_cons]
    rw [(hB n t v).1, (hB n t v).2, ih]

/-- C6: descendant/ancestor duality. If the hierarchy path of an entity has a
second element `P` (its parent reference), and `get_descendants_tree` at
`P`'s name returns a tree, then that entity appears by name among the direct
children of the tree's root. -/
theorem descendant_ancestor_duality (lk : Lookups) (entityName entityType : String)
    (pe p : HierarchyPathEntry) (rest : List HierarchyPathEntry) (tr : HierarchyNode)
    (hpath : getHierarchyPath lk entityName entityType = pe :: p :: rest)
    (htr : getDescendantsTree lk p.name = some tr) :
    ∃ c ∈ tr.children, c.name = entityName := by
  cases he : getEntityByType lk entityName entityType with
  | none =>
    rw [getHierarchyPath, he] at hpath
    exact absurd hpath (by simp)
  | some e =>
    rw [getHierarchyPath, he] at hpath
    have hw : hierarchyWalk lk (totalEntityCount lk + 1) [entityName] e = p :: rest :=
      (List.cons.inj hpath).2
    cases hp : e.parent with
    | none =>
      simp only [hierarchyWalk, hp] at hw
      exact absurd hw (by simp)
    | some pref =>
      by_cases hv : pref.name ∈ [entityName]
      · simp only [hierarchyWalk, hp, if_pos hv] at hw
        exact absurd hw (by simp)
      · have hpn : p.name = pref.name := by
          cases hres : getEntityByType lk pref.name pref.type with
          | none =>
            simp only [hierarchyWalk, hp, if_neg hv, hres] at hw
            have := (List.cons.inj hw).1
            rw [← this]
          | some e2 =>
            simp only [hierarchyWalk, hp, if_neg hv, hres] at hw
            have := (List.cons.inj hw).1
            rw [← this]
        have hcm : (entityName, strLower entityType) ∈ childrenMap lk p.name := by
          rw [hpn]
          exact childrenMap_mem he hp
        unfold getDescendantsTree at htr
        by_cases hty : getEntityType lk p.name = ""
        · rw [if_pos hty] at htr
          exact absurd htr (by simp)
        · rw [if_neg hty] at htr
          have htr2 : tr =
              (buildNode lk (totalEntityCount lk + 1) p.name (getEntityType lk p.name) []).1 :=
            (Option.some.inj htr).symm
          subst htr2
          simp only [buildNode, List.not_mem_nil, if_false]
          have hnames := buildChildrenStep_names (buildNode lk (totalEntityCount lk))
            (fun n t v => buildNode_name_type lk (totalEntityCount lk) n t v)
            (childrenMap lk p.name) [p.name]
          rw [← hnames] at hcm
          obtain ⟨c, hc, hfc⟩ := List.mem_map.mp hcm
          exact ⟨c, by simpa [HierarchyNode.children] using hc, congrArg Prod.fst hfc⟩

/-- Witness for C6: in `lkBasic`, the hierarchy path of `test-team` has
second element `test-org`, and the descendants tree of `test-org` lists
`test-team` among the root's direct children. -/
theorem descendant_ancestor_duality_witness :
    ∃ c ∈ (HierarchyNode.node "test-org" "org"
      [HierarchyNode.node "test-team" "team" []]).children, c.name = "test-team" :=
  descendant_ancestor_duality lkBasic "test-team" "team"
    { name := "test-team", type := "team" } { name := "test-org", type := "org" } []
    (HierarchyNode.node "test-org" "org" [HierarchyNode.node "test-team" "team" []])
    rfl rfl

/-- Unfolding `countExpanded` at a node, with the `attach` eliminated. -/
theorem countExpanded_node (target n ty : String) (cs : List HierarchyNode) :
    countExpanded target (.node n ty cs) =
      (if n = target then (if cs.isEmpty then 0 else 1) else 0) +
        countExpandedList target cs := by
  rw [countExpanded, countExpandedList]
  congr 1
  exact congrArg List.sum (List.attach_map_val cs (countExpanded target))

/-- `countExpandedList` on a cons. -/
theorem countExpandedList_cons (target : String) (c : HierarchyNode)
    (cs : List HierarchyNode) :
    countExpandedList target (c :: cs) =
      countExpanded target c + countExpandedList target cs := by
  simp [countExpandedList]

/-- Unfolding `nodesOf` at a node, with the `attach` eliminated. -/
theorem nodesOf_node (n ty : String) (cs : List HierarchyNode) :
    nodesOf (.node n ty cs) = .node n ty cs :: (cs.map nodesOf).flatten := by
  rw [nodesOf]
  congr 1
  exact congrArg List.flatten (List.attach_map_val cs nodesOf)

/-- Invariants of the threaded sibling step, given that the node builder (a)
only grows the visited set, (b) expands no node whose name is outside the
final visited set, (c) expands no node whose name was already visited, and
(d) expands any given name at most once: the sibling step then satisfies the
same four properties. -/
theorem buildChildrenStep_inv
    (buildN : String → String → List String → HierarchyNode × List String)
    (hmono : ∀ n t v x, x ∈ v → x ∈ (buildN n t v).2)
    (hout : ∀ n t v target, target ∉ (buildN n t v).2 →
      countExpanded target (buildN n t v).1 = 0)
    (hin : ∀ n t v target, target ∈ v → countExpanded target (buildN n t v).1 = 0)
    (hone : ∀ n t v target, countExpanded target (buildN n t v).1 ≤ 1) :
    ∀ pending v,
      (∀ x ∈ v, x ∈ (buildChildrenStep buildN pending v).2) ∧
      (∀ target, target ∉ (buildChildrenStep buildN pending v).2 →
        countExpandedList target (buildChildrenStep buildN pending v).1 = 0) ∧
      (∀ target, target ∈ v →
        countExpandedList target (buildChildrenStep buildN pending v).1 = 0) ∧
      (∀ target, countExpandedList target (buildChildrenStep buildN pending v).1 ≤ 1) := by
  intro pending
  induction pending with
  | nil =>
    intro v
    refine ⟨fun x hx => hx, ?_, ?_, ?_⟩ <;> simp [buildChildrenStep, countExpandedList]
  | cons ht rest ih =>
    intro v
    obtain ⟨n, t⟩ := ht
    obtain ⟨iha, ihb, ihc, ihd⟩ := ih (buildN n t v).2
    simp only [buildChildrenStep, countExpandedList_cons]
    refine ⟨?_, ?_, ?_, ?_⟩
    · intro x hx
      exact iha x (hmono n t v x hx)
    · intro target htg
      rw [hout n t v target (fun hc => htg (iha target hc)), ihb target htg]
    · intro target htg
      rw [hin n t v target htg, ihc target (hmono n t v target htg)]
    · intro target
      rcases Nat.eq_zero_or_pos (countExpanded target (buildN n t v).1) with hz | hpos
      · rw [hz]
        simpa using ihd target
      · have htg : target ∈ (buildN n t v).2 := by
          by_contra hc
          rw [hout n t v target hc] at hpos
          omega
        have hrest := ihc target htg
        rw [hrest]
        have := hone n t v target
        omega

/-- Invariants of `build_node` at every fuel: the visited set only grows; a
node name is expanded (emitted with a non-empty children list) only if it
enters the visited set during the call, never if it was already visited, and
at most once in the whole returned tree. -/
theorem buildNode_inv (lk : Lookups) :
    ∀ fuel n t v,
      (∀ x ∈ v, x ∈ (buildNode lk fuel n t v).2) ∧
      (∀ target, target ∉ (buildNode lk fuel n t v).2 →
        countExpanded target (buildNode lk fuel n t v).1 = 0) ∧
      (∀ target, target ∈ v → countExpanded target (buildNode lk fuel n t v).1 = 0) ∧
      (∀ target, countExpanded target (buildNode lk fuel n t v).1 ≤ 1) := by
  intro fuel
  induction fuel with
  | zero =>
    intro n t v
    refine ⟨fun x hx => hx, ?_, ?_, ?_⟩ <;>
      simp [buildNode, countExpanded_node, countExpandedList]
  | succ fuel ih =>
    intro n t v
    by_cases hv : n ∈ v
    · simp only [buildNode, if_pos hv]
      refine ⟨fun x hx => hx, ?_, ?_, ?_⟩ <;>
        simp [countExpanded_node, countExpandedList]
    · simp only [buildNode, if_neg hv]
      obtain ⟨ha, hb, hc, hd⟩ := buildChildrenStep_inv (buildNode lk fuel)
        (fun n' t' v' x hx => (ih n' t' v').1 x hx)
        (fun n' t' v' target h => (ih n' t' v').2.1 target h)
        (fun n' t' v' target h => (ih n' t' v').2.2.1 target h)
        (fun n' t' v' target => (ih n' t' v').2.2.2 target)
        (childrenMap lk n) (n :: v)
      refine ⟨?_, ?_, ?_, ?_⟩
      · intro x hx
        exact ha x (List.mem_cons_of_mem _ hx)
      · intro target htg
        rw [countExpanded_node]
        have hne : ¬(n = target) := by
          intro hc
          subst hc
          exact htg (ha n (List.mem_cons_self _ _))
        rw [if_neg hne, hb target htg]
      · intro target htg
        rw [countExpanded_node]
        have hne : ¬(n = target) := by
          intro hc
          subst hc
          exact hv htg
        rw [if_neg hne, hc target (List.mem_cons_of_mem _ htg)]
      · intro target
        rw [countExpanded_node]
        by_cases hne : n = target
        · subst hne
          rw [hc n (List.mem_cons_self _ _)]
          split_ifs <;> omega
        · rw [if_neg hne]
          have := hd target
          omega

/-- Every tree in the result list of the sibling step was produced by the
node builder at some arguments. -/
theorem buildChildrenStep_mem_result
    (buildN : String → String → List String → HierarchyNode × List String) :
    ∀ pending v c, c ∈ (buildChildrenStep buildN pending v).1 →
      ∃ n t v', c = (buildN n t v').1 := by
  intro pending
  induction pending with
  | nil => intro v c hc; simp [buildChildrenStep] at hc
  | cons ht rest ih =>
    intro v c hc
    obtain ⟨n, t⟩ := ht
    simp only [buildChildrenStep] at hc
    rcases List.mem_cons.mp hc with he | hm
    · exact ⟨n, t, v, he⟩
    · exact ih _ c hm

/-- In every tree `build_node` returns, each node either is a childless leaf
or carries exactly the (name, kind) children recorded for its name in the
reverse parent adjacency. -/
theorem buildNode_children_shape (lk : Lookups) :
    ∀ fuel n t v, ∀ x ∈ nodesOf (buildNode lk fuel n t v).1,
      x.children = [] ∨
        x.children.map (fun c => (c.name, c.type)) = childrenMap lk x.name := by
  intro fuel
  induction fuel with
  | zero =>
    intro n t v x hx
    simp only [buildNode, nodesOf_node] at hx
    simp only [List.map_nil, List.flatten_nil] at hx
    rcases List.mem_singleton.mp hx with he
    subst he
    exact Or.inl rfl
  | succ fuel ih =>
    intro n t v x hx
    by_cases hv : n ∈ v
    · simp only [buildNode, if_pos hv, nodesOf_node, List.map_nil, List.flatten_nil] at hx
      rcases List.mem_singleton.mp hx with he
      subst he
      exact Or.inl rfl
    · simp only [buildNode, if_neg hv, nodesOf_node] at hx
      rcases List.mem_cons.mp hx with he | hm
      · subst he
        right
        simp only [HierarchyNode.children, HierarchyNode.name]
        exact buildChildrenStep_names (buildNode lk fuel)
          (fun n' t' v' => buildNode_name_type lk fuel n' t' v') (childrenMap lk n) (n :: v)
      · obtain ⟨l, hl, hxl⟩ := List.mem_flatten.mp hm
        obtain ⟨c, hcmem, hcl⟩ := List.mem_map.mp hl
        obtain ⟨n', t', v', hc⟩ := buildChildrenStep_mem_result (buildNode lk fuel)
          (childrenMap lk n) (n :: v) c hcmem
        subst hc
        rw [← hcl] at hxl
        exact ih n' t' v' x hxl

/-- C5 amended: descendant-tree construction with a traversal-wide cycle
guard. `get_descendants_tree` returns none exactly when the name is in no
entity map; otherwise it returns a tree whose root carries the queried name
and its scanned kind, in which every node either is a childless leaf or
carries exactly the children recorded for its name in the reverse parent
adjacency, and in which - because the visited set is shared by the whole
traversal, not tracked per root-to-node path - any given name is expanded
into children at most once: a node that would revisit a name already visited
anywhere earlier in the traversal (in particular an ancestor on its own
path) is emitted as a childless leaf. -/
theorem descendants_shared_visited (lk : Lookups) (entityName : String) :
    ((getDescendantsTree lk entityName).isNone ↔ getEntityType lk entityName = "") ∧
    (∀ tr, getDescendantsTree lk entityName = some tr →
      tr.name = entityName ∧
      tr.type = getEntityType lk entityName ∧
      (∀ target, countExpanded target tr ≤ 1) ∧
      (∀ x ∈ nodesOf tr, x.children = [] ∨
        x.children.map (fun c => (c.name, c.type)) = childrenMap lk x.name)) := by
  constructor
  · unfold getDescendantsTree
    by_cases hty : getEntityType lk entityName = "" <;> simp [hty]
  · intro tr htr
    unfold getDescendantsTree at htr
    by_cases hty : getEntityType lk entityName = ""
    · rw [if_pos hty] at htr
      exact absurd htr (by simp)
    · rw [if_neg hty] at htr
      have htr2 : tr = (buildNode lk (totalEntityCount lk + 1) entityName
          (getEntityType lk entityName) []).1 := (Option.some.inj htr).symm
      subst htr2
      refine ⟨(buildNode_name_type lk _ _ _ _).1, (buildNode_name_type lk _ _ _ _).2, ?_, ?_⟩
      · exact fun target => (buildNode_inv lk _ _ _ _).2.2.2 target
      · exact buildNode_children_shape lk _ _ _ _

/-- Witness for C5 amended, at the two-branch fixture: the returned tree has
the queried root and expands the doubly-reachable name `x` at most once. -/
theorem descendants_shared_visited_witness :
    treeTwoBranch.name = "root" ∧ countExpanded "x" treeTwoBranch ≤ 1 := by
  have h := (descendants_shared_visited lkTwoBranch "root").2 treeTwoBranch rfl
  exact ⟨h.1, h.2.2.1 "x"⟩

/-- C5 counterexample to the per-path claim: in `lkTwoBranch` the name `x` is
reachable from `root` along two disjoint branches (as a team and as an org);
per the claim both occurrences should be expanded, with child `y` each. The
code returns the `(x, org)` node - whose own root-to-node path visits only
`root`, so no per-path revisit occurs - as a childless leaf, even though the
reverse adjacency records the child `y` for `x`, because the first branch
already put `x` into the single visited set shared across the traversal. -/
theorem descendants_per_path_counterexample :
    getDescendantsTree lkTwoBranch "root" = some treeTwoBranch ∧
    HierarchyNode.node "x" "org" [] ∈ treeTwoBranch.children ∧
    childrenMap lkTwoBranch "x" = [("y", "team")] := by
  refine ⟨rfl, ?_, rfl⟩
  simp [treeTwoBranch, HierarchyNode.children]

end OrgDataCore
